import Mathlib

/-!
Verification of `atest/test_finders/test_finder_utils.py`.

Shallow embedding: Python strings become `String`/`List Char`, Python sets
become `Finset String`, raised exceptions become an `Except Err` result,
the filesystem (real paths, directory/file existence, manifest contents,
stdin) is passed in explicitly, and the unbounded `while`/recursion of the
source is modelled with an explicit fuel parameter whose exhaustion is
observable (so non-termination of the source is provable).
-/

namespace TestFinderUtils

/-- Python exceptions and atest error classes raised by the source, plus
`fuelOut`, the marker produced when the fuel bound of a modelled unbounded
loop/recursion is exhausted. -/
inductive Err where
  | keyError (k : String)
  | valueError
  | indexError
  | eofError
  | ioError
  | tooManyMethods
  | missingPackageName (p : String)
  | testWithNoModule (p : String)
  | fuelOut
deriving DecidableEq

instance {ε α : Type} [DecidableEq ε] [DecidableEq α] : DecidableEq (Except ε α) := fun a b =>
  match a, b with
  | .ok x, .ok y => if h : x = y then .isTrue (by rw [h]) else .isFalse (by simp [h])
  | .error x, .error y => if h : x = y then .isTrue (by rw [h]) else .isFalse (by simp [h])
  | .ok _, .error _ => .isFalse (by simp)
  | .error _, .ok _ => .isFalse (by simp)

/-! ## String helpers (Python semantics) -/

/-- The whitespace characters stripped by Python's `str.strip()`. -/
def pySpace (c : Char) : Bool :=
  c = ' ' || c = '\t' || c = '\n' || c = '\r' || c = '\x0b' || c = '\x0c'

/-- Python `s.strip()`: remove leading and trailing whitespace. -/
def pyStrip (s : String) : String :=
  ⟨((s.toList.dropWhile pySpace).reverse.dropWhile pySpace).reverse⟩

/-- Python `s.split(sep)` for a one-character separator: split on every
occurrence, keeping empty chunks (`"".split(c) = [""]`). -/
def splitOnChar (c : Char) : List Char → List (List Char)
  | [] => [[]]
  | x :: xs =>
    match splitOnChar c xs with
    | [] => [[]]
    | r :: rs => if x = c then [] :: r :: rs else (x :: r) :: rs

theorem splitOnChar_ne_nil (c : Char) (l : List Char) : splitOnChar c l ≠ [] := by
  cases l with
  | nil => simp [splitOnChar]
  | cons x xs =>
    simp only [splitOnChar]
    split
    · simp
    · split <;> simp

theorem splitOnChar_not_mem {c : Char} {l : List Char} (h : c ∉ l) :
    splitOnChar c l = [l] := by
  induction l with
  | nil => rfl
  | cons x xs ih =>
    have hx : x ≠ c := fun hxc => h (hxc ▸ List.mem_cons_self x xs)
    have hxs : c ∉ xs := fun hc => h (List.mem_cons_of_mem _ hc)
    simp only [splitOnChar, ih hxs, if_neg hx]

theorem splitOnChar_append {c : Char} {l1 : List Char} (l2 : List Char) (h : c ∉ l1) :
    splitOnChar c (l1 ++ c :: l2) = l1 :: splitOnChar c l2 := by
  induction l1 with
  | nil =>
    simp only [List.nil_append, splitOnChar]
    cases hs : splitOnChar c l2 with
    | nil => exact absurd hs (splitOnChar_ne_nil c l2)
    | cons r rs => simp
  | cons x xs ih =>
    have hx : x ≠ c := fun hxc => h (hxc ▸ List.mem_cons_self x xs)
    have hxs : c ∉ xs := fun hc => h (List.mem_cons_of_mem _ hc)
    simp only [List.cons_append, splitOnChar, List.append_eq, ih hxs, if_neg hx]

theorem splitOnChar_length (c : Char) (l : List Char) :
    (splitOnChar c l).length = l.count c + 1 := by
  induction l with
  | nil => rfl
  | cons x xs ih =>
    cases hs : splitOnChar c xs with
    | nil => exact absurd hs (splitOnChar_ne_nil c xs)
    | cons r rs =>
      rw [hs] at ih
      simp only [List.length_cons] at ih
      simp only [splitOnChar, hs]
      by_cases hx : x = c
      · subst hx
        rw [if_pos rfl]
        simp only [List.length_cons, List.count_cons_self]
        omega
      · rw [if_neg hx]
        simp only [List.length_cons, List.count_cons_of_ne (Ne.symm hx)]
        omega

/-! ## `split_methods` (source lines 88-119) -/

/-- `split_methods(user_input)`: split the user input on `#` into a test
reference and a set of methods; more than one `#` raises
`TooManyMethodsError`. -/
def split_methods (user_input : String) : Except Err (String × Finset String) :=
  match splitOnChar '#' user_input.toList with
  | [p] => .ok (⟨p⟩, ∅)
  | [p1, p2] => .ok (⟨p1⟩, ((splitOnChar ',' p2).map String.mk).toFinset)
  | _ => .error .tooManyMethods

/-- C5: `split_methods` on a string with no `#` returns the input and the
empty set; with exactly one `#` it returns the left part and the set of
comma-separated pieces of the right part; with two or more `#` it fails
with `TooManyMethodsError`. Includes the spec's concrete examples. -/
theorem claim_C5 :
    (∀ s : String, s.toList.count '#' = 0 → split_methods s = .ok (s, ∅))
    ∧ (∀ l1 l2 : List Char, '#' ∉ l1 → '#' ∉ l2 →
        split_methods ⟨l1 ++ '#' :: l2⟩ =
          .ok (⟨l1⟩, ((splitOnChar ',' l2).map String.mk).toFinset))
    ∧ (∀ s : String, 2 ≤ s.toList.count '#' → split_methods s = .error .tooManyMethods)
    ∧ split_methods "Foo#a,b" = .ok ("Foo", {"a", "b"})
    ∧ split_methods "Foo" = .ok ("Foo", ∅)
    ∧ split_methods "a#b#c" = .error .tooManyMethods := by
  refine ⟨?_, ?_, ?_, by decide, by decide, by decide⟩
  · intro s h
    have hnm : '#' ∉ s.toList := List.count_eq_zero.mp h
    show split_methods s = .ok (s, ∅)
    unfold split_methods
    rw [splitOnChar_not_mem hnm]
    try rfl
  · intro l1 l2 h1 h2
    show split_methods _ = _
    unfold split_methods
    have hl : (⟨l1 ++ '#' :: l2⟩ : String).toList = l1 ++ '#' :: l2 := rfl
    rw [hl, splitOnChar_append l2 h1, splitOnChar_not_mem h2]
    try rfl
  · intro s h
    have hlen : 3 ≤ (splitOnChar '#' s.toList).length := by
      rw [splitOnChar_length]; omega
    unfold split_methods
    rcases hs : splitOnChar '#' s.toList with _ | ⟨a, _ | ⟨b, _ | ⟨b2, t⟩⟩⟩ <;>
      first
        | rfl
        | (rw [hs] at hlen; simp at hlen)

theorem claim_C5_witness :
    split_methods "Bar" = .ok ("Bar", ∅) := claim_C5.1 "Bar" (by decide)

/-- C9: an input ending in `#` yields a method set containing the empty
string, and consecutive commas after `#` produce empty-string members. -/
theorem claim_C9 :
    split_methods "Foo#" = .ok ("Foo", {""})
    ∧ (∀ l : List Char, '#' ∉ l → split_methods ⟨l ++ ['#']⟩ = .ok (⟨l⟩, {""}))
    ∧ split_methods "Foo#a,,b" = .ok ("Foo", {"a", "", "b"}) := by
  refine ⟨by decide, ?_, by decide⟩
  intro l h
  show split_methods ⟨l ++ '#' :: []⟩ = _
  unfold split_methods
  have : (⟨l ++ '#' :: []⟩ : String).toList = l ++ '#' :: [] := rfl
  rw [this, splitOnChar_append [] h]
  rfl

theorem claim_C9_witness :
    split_methods "Baz#" = .ok ("Baz", {""}) := by
  have := claim_C9.2.1 ['B', 'a', 'z'] (by decide)
  exact this

/-! ## `get_fully_qualified_class_name` (source lines 123-142) -/

/-- The package-declaration regex `\s*package\s+(?P<package>[^;]+)\s*;\s*`
(case-insensitive, matched with `re.match`, i.e. anchored at the start of
the line only): on a match, returns the text captured by the greedy
`[^;]+` group. -/
def packageMatch (line : String) : Option String :=
  let l := line.toList.dropWhile pySpace
  if (l.take 7).map Char.toLower = "package".toList then
    let r := l.drop 7
    let w := r.takeWhile pySpace
    if w.isEmpty then none
    else
      let afterW := r.drop w.length
      let g := afterW.takeWhile (· ≠ ';')
      if g.isEmpty then
        if decide (2 ≤ w.length) && afterW.contains ';' then
          some ⟨(r.drop (w.length - 1)).takeWhile (· ≠ ';')⟩
        else none
      else if afterW.contains ';' then some ⟨g⟩ else none
  else none

/-- `os.path.split(p)[1]`: the part of the path after the last `/`. -/
def basename (p : String) : String :=
  ⟨(p.toList.reverse.takeWhile (· ≠ '/')).reverse⟩

/-- `os.path.splitext(name)[0]` on a basename: drop the extension starting
at the last dot, unless every character before that dot is a dot. -/
def splitextStem (name : List Char) : List Char :=
  let r := name.reverse
  let extR := r.takeWhile (· ≠ '.')
  if extR.length = r.length then name
  else
    let stem := (r.drop (extR.length + 1)).reverse
    if stem.all (· = '.') then name else stem

/-- The class-name part combined with the package:
`os.path.splitext(os.path.split(test_path)[1])[0]`. -/
def classStem (test_path : String) : String :=
  ⟨splitextStem (basename test_path).toList⟩

/-- `get_fully_qualified_class_name(test_path)`: scan the file's lines for
the first package declaration and combine it with the file's base name;
raise `MissingPackageNameError` when no line matches. The file's contents
are passed as the list of its lines. -/
def get_fully_qualified_class_name (test_path : String) : List String → Except Err String
  | [] => .error (.missingPackageName test_path)
  | line :: rest =>
    match packageMatch line with
    | some pkg => .ok (pkg ++ "." ++ classStem test_path)
    | none => get_fully_qualified_class_name test_path rest

/-- C7: the scan returns, at the first matching line, the declared package
joined with `.` to the file's base name without extension, regardless of
any later lines; when no line of the file matches, it raises
`MissingPackageNameError`. -/
theorem claim_C7 :
    (∀ path pre line post pkg,
       (∀ x ∈ pre, packageMatch x = none) → packageMatch line = some pkg →
       get_fully_qualified_class_name path (pre ++ line :: post) =
         .ok (pkg ++ "." ++ classStem path))
    ∧ (∀ path lines, (∀ x ∈ lines, packageMatch x = none) →
       get_fully_qualified_class_name path lines = .error (.missingPackageName path))
    ∧ get_fully_qualified_class_name "/src/Baz.java" ["package com.foo.bar;"] =
        .ok "com.foo.bar.Baz" := by
  refine ⟨?_, ?_, by decide⟩
  · intro path pre line post pkg hpre hline
    induction pre with
    | nil => simp [get_fully_qualified_class_name, hline]
    | cons x xs ih =>
      have hx : packageMatch x = none := hpre x (List.mem_cons_self x xs)
      have hxs : ∀ y ∈ xs, packageMatch y = none :=
        fun y hy => hpre y (List.mem_cons_of_mem _ hy)
      simpa [get_fully_qualified_class_name, hx] using ih hxs
  · intro path lines h
    induction lines with
    | nil => rfl
    | cons x xs ih =>
      have hx : packageMatch x = none := h x (List.mem_cons_self x xs)
      have hxs : ∀ y ∈ xs, packageMatch y = none :=
        fun y hy => h y (List.mem_cons_of_mem _ hy)
      simp [get_fully_qualified_class_name, hx, ih hxs]

theorem claim_C7_witness :
    get_fully_qualified_class_name "/a/b/Qux.java" ["", "package x.y;", "class Qux {}"] =
      .ok "x.y.Qux" := by
  have := claim_C7.1 "/a/b/Qux.java" [""] "package x.y;" ["class Qux {}"] "x.y"
    (by decide) (by decide)
  simpa using this

/-! ## `extract_test_path` (source lines 145-166) -/

/-- Character test used by `output.strip('\n')`. -/
def isNl (c : Char) : Bool := c = '\n'

/-- Python `output.strip('\n')`: remove leading and trailing newlines. -/
def pyStripNl (s : String) : String :=
  ⟨((s.toList.dropWhile isNl).reverse.dropWhile isNl).reverse⟩

/-- The candidate list `output.strip('\n').split('\n')`. -/
def et_tests (output : String) : List String :=
  (splitOnChar '\n' (pyStripNl output).toList).map String.mk

/-- Value of a decimal digit character. -/
def digitVal (c : Char) : Option Nat :=
  if c.isDigit then some (c.toNat - '0'.toNat) else none

/-- Parse a nonempty all-digit string as a natural number. -/
def natOfDigits (l : List Char) : Option Nat :=
  if l.isEmpty then none
  else l.foldl (fun acc c =>
    match acc, digitVal c with
    | some a, some d => some (a * 10 + d)
    | _, _ => none) (some 0)

/-- Python `int(s)`: strip whitespace, allow one optional sign, then
require at least one decimal digit; anything else raises `ValueError`
(modelled as `none`). -/
def pyInt (s : String) : Option Int :=
  match (pyStrip s).toList with
  | '+' :: ds => (natOfDigits ds).map Int.ofNat
  | '-' :: ds => (natOfDigits ds).map (fun n => -(n : Int))
  | ds => (natOfDigits ds).map Int.ofNat

/-- Python list indexing `l[i]`: negative indices count from the end;
anything out of range raises `IndexError` (modelled as `none`). -/
def pyIndexGet (l : List String) (i : Int) : Option String :=
  if 0 ≤ i then l.get? i.toNat
  else if i.natAbs ≤ l.length then l.get? (l.length - i.natAbs) else none

/-- The numbered candidate list printed by `extract_test_path`. -/
def multiMsg (tests : List String) : String :=
  "Multiple tests found:\n" ++
    String.intercalate "\n" (tests.enum.map fun p => toString p.1 ++ ": " ++ p.2)

/-- The `raw_input` prompt of `extract_test_path`. -/
def promptMsg : String := "Please enter number of test to use:"

/-- Observable outcome of `extract_test_path`: what was printed, the stdin
lines left unconsumed, and the returned path or raised exception. -/
structure ExtractRes where
  printed : List String
  stdinRest : List String
  result : Except Err (Option String)
deriving DecidableEq

/-- `extract_test_path(output)`: `None` on empty output; the single path
when the find output holds one line; otherwise print the numbered list and
read one line of stdin with `int(raw_input(...))`, indexing the candidate
list with it. -/
def extract_test_path (output : String) (stdin : List String) : ExtractRes :=
  if output = "" then ⟨[], stdin, .ok none⟩
  else if 1 < (et_tests output).length then
    match stdin with
    | [] => ⟨[multiMsg (et_tests output), promptMsg], [], .error .eofError⟩
    | s :: rest =>
      ⟨[multiMsg (et_tests output), promptMsg], rest,
        match pyInt s with
        | none => .error .valueError
        | some i =>
          match pyIndexGet (et_tests output) i with
          | none => .error .indexError
          | some t => .ok (some t)⟩
  else
    match pyIndexGet (et_tests output) 0 with
    | some t => ⟨[], stdin, .ok (some t)⟩
    | none => ⟨[], stdin, .error .indexError⟩

/-- C2 counterexample: with two matches, a non-numeric selection raises an
uncaught `ValueError` and an out-of-range selection an uncaught
`IndexError` — the selection is not retried, the call crashes. -/
theorem claim_C2_cex :
    (extract_test_path "/a/X.java\n/b/X.java" ["abc"]).result = .error .valueError
    ∧ (extract_test_path "/a/X.java\n/b/X.java" ["5"]).result = .error .indexError := by
  constructor <;> decide

/-- C2 as amended: zero matches return `None`; one match returns that path
with no stdin consumed; two or more matches print the enumerated list and
consume exactly one stdin line, and the selection either indexes the list
(Python semantics, negative indices included) or raises an uncaught
`ValueError` (non-numeric) / `IndexError` (out of range). -/
theorem claim_C2 :
    (∀ stdin, extract_test_path "" stdin = ⟨[], stdin, .ok none⟩)
    ∧ (∀ output stdin t, output ≠ "" → et_tests output = [t] →
        extract_test_path output stdin = ⟨[], stdin, .ok (some t)⟩)
    ∧ (∀ output s rest, output ≠ "" → 1 < (et_tests output).length →
        (extract_test_path output (s :: rest)).printed =
            [multiMsg (et_tests output), promptMsg]
        ∧ (extract_test_path output (s :: rest)).stdinRest = rest
        ∧ (pyInt s = none →
            (extract_test_path output (s :: rest)).result = .error .valueError)
        ∧ (∀ i, pyInt s = some i → pyIndexGet (et_tests output) i = none →
            (extract_test_path output (s :: rest)).result = .error .indexError)
        ∧ (∀ i t, pyInt s = some i → pyIndexGet (et_tests output) i = some t →
            (extract_test_path output (s :: rest)).result = .ok (some t)))
    ∧ (extract_test_path "/a/X.java\n/b/X.java" ["1"]).result = .ok (some "/b/X.java") := by
  refine ⟨fun stdin => rfl, ?_, ?_, by decide⟩
  · intro output stdin t hout htests
    rw [extract_test_path.eq_def, if_neg hout, htests]
    simp [pyIndexGet]
  · intro output s rest hout hlen
    rw [extract_test_path.eq_def, if_neg hout, if_pos hlen]
    refine ⟨rfl, rfl, ?_, ?_, ?_⟩
    · intro hint; simp [hint]
    · intro i hint hidx; simp [hint, hidx]
    · intro i t hint hidx; simp [hint, hidx]

theorem claim_C2_witness :
    extract_test_path "/x/A.java" ["junk"] = ⟨[], ["junk"], .ok (some "/x/A.java")⟩ :=
  claim_C2.2.1 "/x/A.java" ["junk"] "/x/A.java" (by decide) (by decide)

/-! ## Path helpers (`os.path` semantics) -/

/-- `b.startswith(p)` / `a.endswith(p)` as used by `os.path.join`. -/
def strStartsWith (s p : String) : Bool := p.toList.isPrefixOf s.toList

def strEndsWith (s p : String) : Bool := p.toList.isSuffixOf s.toList

/-- `os.path.join(a, b)` (posix, two arguments). -/
def pathJoin (a b : String) : String :=
  if strStartsWith b "/" then b
  else if a = "" then b
  else if strEndsWith a "/" then a ++ b
  else a ++ "/" ++ b

/-- `os.path.dirname(p)` (posix): everything before the last `/`, with
trailing slashes stripped unless the result is all slashes. -/
def dirname (p : String) : String :=
  let r := p.toList.reverse
  let tailPart := r.takeWhile (· ≠ '/')
  if tailPart.length = r.length then ""
  else
    let head := (r.drop tailPart.length).reverse
    if head.all (· = '/') then ⟨head⟩
    else ⟨(head.reverse.dropWhile (· = '/')).reverse⟩

/-- `n` applications of `dirname`, the upward walk of the `while` loop. -/
def iterDirname : Nat → String → String
  | 0, s => s
  | n + 1, s => iterDirname n (dirname s)

/-- The non-empty `/`-separated components of a path. -/
def pathComponents (p : String) : List (List Char) :=
  (splitOnChar '/' p.toList).filter (fun c => !c.isEmpty)

def commonCompLen : List (List Char) → List (List Char) → Nat
  | x :: xs, y :: ys => if x = y then commonCompLen xs ys + 1 else 0
  | _, _ => 0

def joinSlash : List (List Char) → List Char
  | [] => []
  | [x] => x
  | x :: y :: xs => x ++ '/' :: joinSlash (y :: xs)

/-- `os.path.relpath(path, start)` (posix, both paths canonical absolute). -/
def relpath (path start : String) : String :=
  let pl := pathComponents path
  let sl := pathComponents start
  let k := commonCompLen pl sl
  let rel := List.replicate (sl.length - k) ['.', '.'] ++ pl.drop k
  if rel.isEmpty then "." else ⟨joinSlash rel⟩

/-- `os.path.commonprefix([a, b])`: the longest common STRING prefix —
a character-wise comparison, not a path-component one. -/
def commonprefix : List Char → List Char → List Char
  | x :: xs, y :: ys => if x = y then x :: commonprefix xs ys else []
  | _, _ => []

/-! ## `is_equal_or_sub_dir` and `find_parent_module_dir`
(source lines 194-238) -/

/-- `is_equal_or_sub_dir(sub_dir, parent_dir)`: resolve both through
`os.path.realpath`, require both to be directories, then compare with
`os.path.commonprefix([sub_dir, parent_dir]) == parent_dir`. The
filesystem (`realpath`, `isdir`) is passed in explicitly. -/
def is_equal_or_sub_dir (realpath : String → String) (isdir : String → Bool)
    (sub_dir parent_dir : String) : Bool :=
  let p := realpath parent_dir
  let s := realpath sub_dir
  if !isdir s || !isdir p then false
  else commonprefix s.toList p.toList == p.toList

/-- The `while current_dir != root_dir` loop of `find_parent_module_dir`,
with explicit fuel (`none` = the loop has not returned within `fuel`
iterations). -/
def fpmdLoop (isfile : String → Bool) (root marker start : String) :
    Nat → String → Option (Except Err String)
  | 0, _ => none
  | n + 1, current =>
    if current = root then some (.error (.testWithNoModule start))
    else if isfile (pathJoin current marker) then some (.ok (relpath current root))
    else fpmdLoop isfile root marker start n (dirname current)

/-- `find_parent_module_dir(root_dir, start_dir, file_to_locate)`: raise
`ValueError` unless `is_equal_or_sub_dir(start_dir, root_dir)`, then walk
up from `start_dir` with `os.path.dirname` looking for the marker file. -/
def find_parent_module_dir (realpath : String → String) (isdir isfile : String → Bool)
    (root_dir start_dir marker : String) (fuel : Nat) : Option (Except Err String) :=
  if is_equal_or_sub_dir realpath isdir start_dir root_dir then
    fpmdLoop isfile root_dir marker start_dir fuel start_dir
  else some (.error .valueError)

theorem fpmdLoop_step (isfile : String → Bool) (root marker start : String) (n : Nat)
    (current : String) (hne : current ≠ root)
    (hfile : isfile (pathJoin current marker) = false) :
    fpmdLoop isfile root marker start (n + 1) current =
      fpmdLoop isfile root marker start n (dirname current) := by
  rw [fpmdLoop, if_neg hne, hfile]
  simp

/-- The descendant test the spec's words require: canonicalized
path-component comparison — `sub` equals `parent` or lies below it as
whole path components. Stated from the spec, for comparison with the
source's string-prefix `is_equal_or_sub_dir`. -/
def specDescendantOrEqual (sub parent : String) : Bool :=
  (pathComponents parent).isPrefixOf (pathComponents sub)

def isdirC3 (s : String) : Bool := s = "/r" || s = "/r/a" || s = "/r/ab"

/-- `find_parent_module_dir` on root `/r/a` and sibling start `/r/ab`
(marker nowhere below) returns no answer for ANY amount of fuel: the walk
`/r/ab → /r → / → / → ...` never meets `/r/a` and never terminates. -/
def fpmdDivergesC3 : Prop :=
  ∀ fuel, find_parent_module_dir id isdirC3 (fun _ => false)
      "/r/a" "/r/ab" "Android.mk" fuel = none

theorem fpmdLoop_slash_diverges :
    ∀ n, fpmdLoop (fun _ => false) "/r/a" "Android.mk" "/r/ab" n "/" = none := by
  intro n
  induction n with
  | zero => rfl
  | succ k ih =>
    rw [fpmdLoop_step _ _ _ _ _ _ (by decide) rfl]
    rw [show dirname "/" = "/" from by decide]
    exact ih

/-- C3: the code's own documentation ("sub dir or equal") and the spec
require the input-validation error for the sibling `/r/ab` of root
`/r/a`; the character-wise `commonprefix` test instead accepts it
(`is_equal_or_sub_dir` returns `true`), no `ValueError` is raised, and the
upward walk then diverges without ever reaching the root. -/
theorem claim_C3 :
    is_equal_or_sub_dir id isdirC3 "/r/ab" "/r/a" = true
    ∧ specDescendantOrEqual "/r/ab" "/r/a" = false
    ∧ fpmdDivergesC3 := by
  refine ⟨by decide, by decide, ?_⟩
  intro fuel
  rw [find_parent_module_dir, if_pos (by decide)]
  cases fuel with
  | zero => rfl
  | succ m =>
    rw [fpmdLoop_step _ _ _ _ _ _ (by decide) rfl]
    rw [show dirname "/r/ab" = "/r" from by decide]
    cases m with
    | zero => rfl
    | succ k =>
      rw [fpmdLoop_step _ _ _ _ _ _ (by decide) rfl]
      rw [show dirname "/r" = "/" from by decide]
      exact fpmdLoop_slash_diverges k

theorem fpmdLoop_no_marker (isfile : String → Bool) (root marker start : String) :
    ∀ n fuel current, n < fuel → iterDirname n current = root →
    (∀ m, m < n → iterDirname m current ≠ root ∧
        isfile (pathJoin (iterDirname m current) marker) = false) →
    fpmdLoop isfile root marker start fuel current =
      some (.error (.testWithNoModule start)) := by
  intro n
  induction n with
  | zero =>
    intro fuel current hf h0 _
    cases fuel with
    | zero => omega
    | succ k =>
      have hc : current = root := h0
      rw [fpmdLoop, if_pos hc]
  | succ m ih =>
    intro fuel current hf hreach hmid
    cases fuel with
    | zero => omega
    | succ k =>
      have hne : current ≠ root := (hmid 0 (Nat.succ_pos m)).1
      have hfile : isfile (pathJoin current marker) = false := (hmid 0 (Nat.succ_pos m)).2
      rw [fpmdLoop_step _ _ _ _ _ _ hne hfile]
      exact ih k (dirname current) (by omega) hreach
        (fun j hj => hmid (j + 1) (by omega))

/-- C10: when the upward walk from a proper descendant of the root meets
the root after `n` steps without finding the marker strictly below it, the
call raises `TestWithNoModuleError` — even though the marker file IS
present in the root directory, which the loop never tests. -/
theorem claim_C10 (realpath : String → String) (isdir isfile : String → Bool)
    (root start marker : String) (n fuel : Nat)
    (hsub : is_equal_or_sub_dir realpath isdir start root = true)
    (hpos : 0 < n) (hf : n < fuel)
    (hreach : iterDirname n start = root)
    (hmid : ∀ m, m < n → iterDirname m start ≠ root ∧
        isfile (pathJoin (iterDirname m start) marker) = false)
    (hrootmarker : isfile (pathJoin root marker) = true) :
    find_parent_module_dir realpath isdir isfile root start marker fuel =
      some (.error (.testWithNoModule start)) := by
  rw [find_parent_module_dir, if_pos hsub]
  exact fpmdLoop_no_marker isfile root marker start n fuel start hf hreach hmid

def isdirC10 (s : String) : Bool := s = "/r" || s = "/r/a" || s = "/r/a/b"

def isfileC10 (s : String) : Bool := s = "/r/M"

theorem claim_C10_witness :
    find_parent_module_dir id isdirC10 isfileC10 "/r" "/r/a/b" "M" 5 =
      some (.error (.testWithNoModule "/r/a/b")) :=
  claim_C10 id isdirC10 isfileC10 "/r" "/r/a/b" "M" 2 5 (by decide) (by decide)
    (by decide) (by decide) (by decide) (by decide)

/-! ## Configuration documents (`xml.etree` model) -/

/-- An XML element: its tag and its attribute dictionary. A config
document is the list of the root's descendant elements (what the source's
`findall('.//option')` / `findall(".//*[@class]")` search). -/
structure XmlElement where
  tag : String
  attrib : List (String × String)
deriving DecidableEq

/-- `element.attrib[k]`: `none` models the `KeyError` Python raises. -/
def attribGet (a : List (String × String)) (k : String) : Option String :=
  (a.find? (fun p => p.1 == k)).map (fun p => p.2)

/-- `l.count(sub) > 0`-style Python `sub in s` substring containment. -/
def hasSubstring (sub : List Char) : List Char → Bool
  | [] => sub.isEmpty
  | x :: xs => sub.isPrefixOf (x :: xs) || hasSubstring sub xs

/-- The regex `^[^/]+\.apk$` with `re.I`: no `/` anywhere, at least one
character before a case-insensitive `.apk` suffix. -/
def apkMatch (v : String) : Bool :=
  let l := v.toList
  decide (5 ≤ l.length) && !(l.contains '/') &&
    (l.drop (l.length - 4)).map Char.toLower == ['.', 'a', 'p', 'k']

/-- `value[:-len('.apk')]`: the value minus its last four characters. -/
def stripApk (s : String) : String := ⟨s.toList.take (s.toList.length - 4)⟩

/-! ## `get_targets_from_xml_root` (source lines 257-298) -/

/-- The body of the option loop of `get_targets_from_xml_root`: read the
`value` attribute (`KeyError` when absent), strip it; an `.apk` match is
added when `module_info.is_module` accepts it and otherwise recorded as a
skip warning; a value containing `perf-setup.sh` adds that label. -/
def xmlRootStep (mi : String → Bool) (acc : Finset String × List String)
    (e : XmlElement) : Except Err (Finset String × List String) :=
  match attribGet e.attrib "value" with
  | none => .error (.keyError "value")
  | some raw =>
    let value := pyStrip raw
    if apkMatch value then
      let t := stripApk value
      if mi t then .ok (insert t acc.1, acc.2) else .ok (acc.1, acc.2 ++ [t])
    else if hasSubstring "perf-setup.sh".toList value.toList then
      .ok (insert "perf-setup.sh" acc.1, acc.2)
    else .ok acc

/-- The class-attribute pass of `get_targets_from_xml_root`: every element
carrying a `class` attribute whose stripped value starts with
`com.android.compatibility` adds the `cts-tradefed` target. -/
def ctsTargets (doc : List XmlElement) (acc : Finset String) : Finset String :=
  (doc.filter (fun e => (attribGet e.attrib "class").isSome)).foldl
    (fun s e =>
      match attribGet e.attrib "class" with
      | some c =>
        if strStartsWith (pyStrip c) "com.android.compatibility" then
          insert "cts-tradefed" s
        else s
      | none => s) acc

/-- `get_targets_from_xml_root(xml_root, module_info)`: the target set and
the list of skip warnings, or the uncaught exception. -/
def get_targets_from_xml_root (doc : List XmlElement) (mi : String → Bool) :
    Except Err (Finset String × List String) :=
  match (doc.filter (fun e => e.tag == "option")).foldlM (xmlRootStep mi) (∅, []) with
  | .error e => .error e
  | .ok r => .ok (ctsTargets doc r.1, r.2)

theorem xmlRootFold_ok (mi : String → Bool) :
    ∀ (l : List XmlElement) (acc : Finset String × List String),
    (∀ e ∈ l, (attribGet e.attrib "value").isSome) →
    ∃ r, l.foldlM (xmlRootStep mi) acc = .ok r := by
  intro l
  induction l with
  | nil => exact fun acc _ => ⟨acc, rfl⟩
  | cons e es ih =>
    intro acc h
    obtain ⟨v, hv⟩ := Option.isSome_iff_exists.mp (h e (List.mem_cons_self e es))
    have hstep : ∃ acc', xmlRootStep mi acc e = .ok acc' := by
      simp only [xmlRootStep, hv]
      split
      · split
        · exact ⟨_, rfl⟩
        · exact ⟨_, rfl⟩
      · split
        · exact ⟨_, rfl⟩
        · exact ⟨_, rfl⟩
    obtain ⟨acc', hacc'⟩ := hstep
    rw [List.foldlM_cons, hacc']
    exact ih acc' (fun x hx => h x (List.mem_cons_of_mem _ hx))

/-- C4 counterexample: a document whose single (malformed) option element
has no `value` attribute makes `get_targets_from_xml_root` raise an
uncaught `KeyError` instead of returning a target set. -/
theorem claim_C4_cex :
    get_targets_from_xml_root [⟨"option", [("name", "x")]⟩] (fun _ => false) =
      .error (.keyError "value") := by
  decide

/-- C4 as amended: provided every option element carries a `value`
attribute, extraction always returns a target set (an unverifiable module
target is skipped with a warning, never a failure), and a bare-`.apk`
option value contributes its stem exactly when `is_module` accepts it; an
option element without a `value` attribute instead raises an uncaught
`KeyError`. -/
theorem claim_C4 :
    (∀ doc mi, (∀ e ∈ doc, e.tag = "option" → (attribGet e.attrib "value").isSome) →
        ∃ r, get_targets_from_xml_root doc mi = .ok r)
    ∧ (∀ s, strEndsWith s ".apk" = true → s.toList.contains '/' = false →
        5 ≤ s.toList.length → apkMatch s = true)
    ∧ (∀ raw mi, apkMatch (pyStrip raw) = true →
        get_targets_from_xml_root [⟨"option", [("name", "n"), ("value", raw)]⟩] mi =
          .ok (if mi (stripApk (pyStrip raw))
            then ({stripApk (pyStrip raw)}, [])
            else (∅, [stripApk (pyStrip raw)])))
    ∧ get_targets_from_xml_root [⟨"option", [("value", "foo.apk")]⟩]
        (fun n => n == "foo") = .ok ({"foo"}, [])
    ∧ get_targets_from_xml_root [⟨"option", [("value", "foo.apk")]⟩]
        (fun _ => false) = .ok (∅, ["foo"]) := by
  refine ⟨?_, ?_, ?_, by decide, by decide⟩
  · intro doc mi h
    have hopt : ∀ e ∈ doc.filter (fun e => e.tag == "option"),
        (attribGet e.attrib "value").isSome := by
      intro e he
      have := List.mem_filter.mp he
      exact h e this.1 (by simpa using this.2)
    obtain ⟨r, hr⟩ := xmlRootFold_ok mi _ (∅, []) hopt
    exact ⟨_, by rw [get_targets_from_xml_root, hr]⟩
  · intro s hsuffix hslash hlen
    unfold strEndsWith at hsuffix
    obtain ⟨pre, hp⟩ := List.isSuffixOf_iff_suffix.mp hsuffix
    have hpre : s.toList = pre ++ ['.', 'a', 'p', 'k'] := by rw [← hp]; rfl
    rw [apkMatch]
    rw [hpre] at hlen hslash ⊢
    have hdrop : (pre ++ ['.', 'a', 'p', 'k']).drop
        ((pre ++ ['.', 'a', 'p', 'k']).length - 4) = ['.', 'a', 'p', 'k'] := by
      rw [List.length_append]
      simp
    rw [hdrop]
    simp only [Bool.and_eq_true, decide_eq_true_eq]
    exact ⟨⟨hlen, by rw [hslash]; rfl⟩, by decide⟩
  · intro raw mi h
    rw [get_targets_from_xml_root]
    have hfilter : ([⟨"option", [("name", "n"), ("value", raw)]⟩] :
        List XmlElement).filter (fun e => e.tag == "option") =
        [⟨"option", [("name", "n"), ("value", raw)]⟩] := rfl
    rw [hfilter, List.foldlM_cons]
    have hv : attribGet [("name", "n"), ("value", raw)] "value" = some raw := rfl
    rw [xmlRootStep, hv]
    simp only [h, if_true]
    have hc : ∀ S : Finset String,
        ctsTargets [⟨"option", [("name", "n"), ("value", raw)]⟩] S = S :=
      fun S => rfl
    by_cases hmi : mi (stripApk (pyStrip raw))
    · simp [hmi, hc]
    · simp [hmi, hc]

theorem claim_C4_witness :
    ∃ r, get_targets_from_xml_root
      [⟨"option", [("value", "bar.apk")]⟩, ⟨"target_preparer", [("class", "c.d")]⟩]
      (fun _ => true) = .ok r :=
  claim_C4.1 [⟨"option", [("value", "bar.apk")]⟩, ⟨"target_preparer", [("class", "c.d")]⟩]
    (fun _ => true) (by decide)

/-! ## `_get_vts_binary_src_target` (source lines 349-376) -/

/-- Helper for the greedy regex `.*::(?P<target>.*)$`: scanning the
REVERSED value, the characters before its first `::` (i.e. the characters
after the last `::` of the value), or `none` when no `::` occurs. -/
def revToDColon : List Char → Option (List Char)
  | ':' :: ':' :: _ => some []
  | x :: rest => (revToDColon rest).map (fun r => x :: r)
  | [] => none

/-- The capture of `re.match('.*::(.*)$', value)`: with a greedy `.*`, the
group is everything after the LAST `::`; `none` when the regex does not
match (no `::` present). -/
def afterLastDColon (l : List Char) : Option (List Char) :=
  (revToDColon l.reverse).map List.reverse

/-- Python `value.split('->')[0]`: the part before the first `->`
occurrence (the whole value when `->` is absent). -/
def beforeArrow : List Char → List Char
  | [] => []
  | '-' :: '>' :: _ => []
  | x :: rest => x :: beforeArrow rest

/-- `_get_vts_binary_src_target(value, rel_out_dir)`: try the
`arch::path` regex first (join the group), then `->` splitting (join the
stripped left part), else keep the value as is. -/
def _get_vts_binary_src_target (value rel_out_dir : String) : String :=
  match afterLastDColon value.toList with
  | some t => pathJoin rel_out_dir ⟨t⟩
  | none =>
    if hasSubstring ['-', '>'] value.toList then
      pathJoin rel_out_dir (pyStrip ⟨beforeArrow value.toList⟩)
    else value

/-- C8 counterexample: for value `"DATA/bin ->/data/bin"` the code strips
the whitespace of the left part and returns `"out/DATA/bin"`, which is NOT
`rel_out_dir` joined with the literal part before `->`
(`"out/DATA/bin "`). -/
theorem claim_C8_cex :
    _get_vts_binary_src_target "DATA/bin ->/data/bin" "out" = "out/DATA/bin"
    ∧ pathJoin "out" ⟨beforeArrow ("DATA/bin ->/data/bin").toList⟩ = "out/DATA/bin "
    ∧ ("out/DATA/bin" : String) ≠ "out/DATA/bin " := by
  exact ⟨by decide, by decide, by decide⟩

/-- C8 as amended: (i) a value matching `.*::(.*)$` yields `rel_out_dir`
joined with the part after the last `::`; (ii) otherwise a value
containing `->` yields `rel_out_dir` joined with the part before the first
`->` STRIPPED of surrounding whitespace; (iii) otherwise the value is
returned verbatim with no prefix. -/
theorem claim_C8 :
    (∀ value rel t, afterLastDColon value.toList = some t →
        _get_vts_binary_src_target value rel = pathJoin rel ⟨t⟩)
    ∧ (∀ value rel, afterLastDColon value.toList = none →
        hasSubstring ['-', '>'] value.toList = true →
        _get_vts_binary_src_target value rel =
          pathJoin rel (pyStrip ⟨beforeArrow value.toList⟩))
    ∧ (∀ value rel, afterLastDColon value.toList = none →
        hasSubstring ['-', '>'] value.toList = false →
        _get_vts_binary_src_target value rel = value)
    ∧ _get_vts_binary_src_target "_32bit::DATA/nativetest/b" "out" = "out/DATA/nativetest/b"
    ∧ _get_vts_binary_src_target "DATA/bin->/data/bin" "out" = "out/DATA/bin"
    ∧ _get_vts_binary_src_target "out/host/linux-x86/bin/V" "o" = "out/host/linux-x86/bin/V" := by
  refine ⟨?_, ?_, ?_, by decide, by decide, by decide⟩
  · intro value rel t h
    rw [_get_vts_binary_src_target, h]
  · intro value rel h1 h2
    rw [_get_vts_binary_src_target, h1, if_pos h2]
  · intro value rel h1 h2
    rw [_get_vts_binary_src_target, h1, if_neg (ne_true_of_eq_false h2)]

theorem claim_C8_witness :
    _get_vts_binary_src_target "_IPC32_32bit::DATA/t" "out" = "out/DATA/t" := by
  have := claim_C8.1 "_IPC32_32bit::DATA/t" "out" "DATA/t".toList (by decide)
  simpa using this

/-! ## `_get_vts_push_group_targets` (source lines 300-330) -/

/-- The push-manifest directory contents: manifest name → its lines
(`none` = no such file, the `IOError` of `open`). -/
def envLookup (env : List (String × List String)) (name : String) : Option (List String) :=
  (env.find? (fun p => p.1 == name)).map (fun p => p.2)

/-- `target.endswith('.push')`. -/
def hasSuffixPush (s : String) : Bool := strEndsWith s ".push"

/-- `_get_vts_push_group_targets(push_file, rel_out_dir)`: read the
manifest, skip blank lines, recurse into `.push` lines (NO cycle guard in
the source) and add `rel_out_dir`-joined left parts of `->` lines. `fuel`
bounds the modelled recursion depth: `.error .fuelOut` means the source's
recursion exceeds that depth. -/
def _get_vts_push_group_targets (env : List (String × List String)) (rel_out_dir : String) :
    Nat → String → Except Err (Finset String)
  | 0, _ => .error .fuelOut
  | fuel + 1, push_file =>
    match envLookup env push_file with
    | none => .error .ioError
    | some lines =>
      lines.foldlM (fun acc line =>
        let target := pyStrip line
        if target = "" then pure acc
        else if hasSuffixPush target then
          (_get_vts_push_group_targets env rel_out_dir fuel target).map (fun ts => acc ∪ ts)
        else pure (insert (pathJoin rel_out_dir ⟨beforeArrow target.toList⟩) acc)) ∅
  termination_by fuel _ => fuel

/-- The loop body of `_get_vts_push_group_targets`, named for reasoning. -/
def pushStep (env : List (String × List String)) (rel_out_dir : String) (fuel : Nat)
    (acc : Finset String) (line : String) : Except Err (Finset String) :=
  let target := pyStrip line
  if target = "" then pure acc
  else if hasSuffixPush target then
    (_get_vts_push_group_targets env rel_out_dir fuel target).map (fun ts => acc ∪ ts)
  else pure (insert (pathJoin rel_out_dir ⟨beforeArrow target.toList⟩) acc)

theorem push_group_succ (env : List (String × List String)) (rel : String)
    (fuel : Nat) (push_file : String) :
    _get_vts_push_group_targets env rel (fuel + 1) push_file =
      match envLookup env push_file with
      | none => .error .ioError
      | some lines => lines.foldlM (pushStep env rel fuel) ∅ := by
  rw [_get_vts_push_group_targets]
  rfl

theorem except_bind_error {ε α β : Type} (e : ε) (f : α → Except ε β) :
    (Except.error e >>= f) = Except.error e := rfl

theorem except_bind_ok {ε α β : Type} (a : α) (f : α → Except ε β) :
    (Except.ok a >>= f) = f a := rfl

/-- A manifest that lists itself: the smallest cyclic reference graph. -/
def cycEnv : List (String × List String) := [("a.push", ["a.push"])]

/-- The expansion of `name` never returns: it exceeds every recursion
depth bound. -/
def pushExpandDiverges (env : List (String × List String)) (rel name : String) : Prop :=
  ∀ fuel, _get_vts_push_group_targets env rel fuel name = .error .fuelOut

/-- C1 counterexample: on the cyclic manifest `a.push -> a.push` the
expansion re-enters the manifest already on its expansion path and never
terminates — it neither raises a cycle-rejection error nor deduplicates. -/
theorem claim_C1_cex : pushExpandDiverges cycEnv "out" "a.push" := by
  intro fuel
  induction fuel with
  | zero => rw [_get_vts_push_group_targets]
  | succ n ih =>
    rw [push_group_succ]
    rw [show envLookup cycEnv "a.push" = some ["a.push"] from rfl]
    simp only [List.foldlM_cons, List.foldlM_nil]
    rw [show pushStep cycEnv "out" n ∅ "a.push" =
        (_get_vts_push_group_targets cycEnv "out" n "a.push").map
          (fun ts => ∅ ∪ ts) from rfl]
    rw [ih]
    rfl

theorem envLookup_mem {env : List (String × List String)} {name : String}
    {lines : List String} (h : envLookup env name = some lines) : (name, lines) ∈ env := by
  unfold envLookup at h
  cases hf : env.find? (fun p => p.1 == name) with
  | none => rw [hf] at h; cases h
  | some p =>
    rw [hf] at h
    have hp : p.1 = name := by
      have := List.find?_some hf
      simpa using this
    have hmem := List.mem_of_find?_eq_some hf
    have h2 : p.2 = lines := by simpa using h
    have : (name, lines) = p := by
      cases p
      simp_all
    rw [this]
    exact hmem

theorem pushStep_no_fuelOut {env : List (String × List String)} {rel : String} {n : Nat}
    {acc : Finset String} {line : String} {e : Err}
    (hrec : hasSuffixPush (pyStrip line) = true →
        _get_vts_push_group_targets env rel n (pyStrip line) ≠ .error .fuelOut)
    (h : pushStep env rel n acc line = .error e) : e ≠ .fuelOut := by
  unfold pushStep at h
  by_cases h1 : pyStrip line = ""
  · simp [h1] at h
    cases h
  · rw [if_neg h1] at h
    by_cases h2 : hasSuffixPush (pyStrip line)
    · rw [if_pos h2] at h
      cases hr : _get_vts_push_group_targets env rel n (pyStrip line) with
      | error e2 =>
        rw [hr] at h
        have he : e2 = e := by
          simpa [Except.map] using h
        intro hcontra
        exact hrec h2 (by rw [hr, he, hcontra])
      | ok ts =>
        rw [hr] at h
        simp [Except.map] at h
    · rw [if_neg h2] at h
      simp only [pure] at h
      cases h

theorem pushFold_no_fuelOut (env : List (String × List String)) (rel : String) (n : Nat) :
    ∀ (lines : List String) (acc : Finset String),
    (∀ line ∈ lines, hasSuffixPush (pyStrip line) = true →
        _get_vts_push_group_targets env rel n (pyStrip line) ≠ .error .fuelOut) →
    lines.foldlM (pushStep env rel n) acc ≠ .error .fuelOut := by
  intro lines
  induction lines with
  | nil =>
    intro acc _ hcontra
    rw [List.foldlM_nil] at hcontra
    cases hcontra
  | cons line rest ih =>
    intro acc h
    rw [List.foldlM_cons]
    cases hstep : pushStep env rel n acc line with
    | error e =>
      rw [except_bind_error]
      have : e ≠ .fuelOut :=
        pushStep_no_fuelOut (fun hp => h line (List.mem_cons_self line rest) hp) hstep
      intro hcontra
      exact this (by injection hcontra)
    | ok acc' =>
      rw [except_bind_ok]
      exact ih acc' (fun l hl => h l (List.mem_cons_of_mem _ hl))

/-- C1 as amended: on an acyclic manifest reference graph (one admitting a
rank that strictly decreases across nested `.push` references) the
expansion terminates with a defined result for any recursion-depth bound
beyond the rank; but the source has no cycle guard, so on a cyclic graph a
manifest already on the expansion path IS re-entered and the expansion
never returns (see the counterexample). -/
theorem claim_C1 (env : List (String × List String)) (rank : String → Nat) (rel : String)
    (hacyc : ∀ p ∈ env, ∀ line ∈ p.2, hasSuffixPush (pyStrip line) = true →
        rank (pyStrip line) < rank p.1) :
    ∀ fuel name, rank name < fuel →
      _get_vts_push_group_targets env rel fuel name ≠ .error .fuelOut := by
  intro fuel
  induction fuel with
  | zero => intro name h; omega
  | succ n ih =>
    intro name h
    rw [push_group_succ]
    cases hlk : envLookup env name with
    | none => intro hcontra; cases hcontra
    | some lines =>
      have hmem : (name, lines) ∈ env := envLookup_mem hlk
      have hlines : ∀ line ∈ lines, hasSuffixPush (pyStrip line) = true →
          _get_vts_push_group_targets env rel n (pyStrip line) ≠ .error .fuelOut := by
        intro line hl hp
        refine ih (pyStrip line) ?_
        have hlt : rank (pyStrip line) < rank name := hacyc (name, lines) hmem line hl hp
        omega
      exact pushFold_no_fuelOut env rel n lines ∅ hlines

/-- An acyclic two-manifest environment for the witness. -/
def demoEnv : List (String × List String) :=
  [("a.push", ["b.push", "x->/data/x"]), ("b.push", ["y->/data/y"])]

def demoRank (n : String) : Nat := if n = "a.push" then 1 else 0

theorem claim_C1_witness :
    _get_vts_push_group_targets demoEnv "out" 2 "a.push" ≠ .error .fuelOut :=
  claim_C1 demoEnv demoRank "out" (by decide) 2 "a.push" (by decide)

/-! ## `_specified_bitness` and `get_targets_from_vts_xml`
(source lines 332-347 and 378-427) -/

/-- The option scan of `_specified_bitness`: reads both attributes of each
option (`KeyError` when absent) and returns `True` at the first option
named `append-bitness` with stripped value `true`. -/
def _specified_bitness_go : List XmlElement → Except Err Bool
  | [] => .ok false
  | e :: rest =>
    match attribGet e.attrib "value" with
    | none => .error (.keyError "value")
    | some v =>
      match attribGet e.attrib "name" with
      | none => .error (.keyError "name")
      | some n =>
        if pyStrip n = "append-bitness" ∧ pyStrip v = "true" then .ok true
        else _specified_bitness_go rest

/-- `_specified_bitness(xml_root)`: whether any option of the document
sets `append-bitness` to `true`. -/
def _specified_bitness (doc : List XmlElement) : Except Err Bool :=
  _specified_bitness_go (doc.filter (fun e => e.tag == "option"))

/-- The body of the option loop of `get_targets_from_vts_xml`. -/
def vtsStep (doc : List XmlElement) (rel : String) (mi : String → Bool)
    (env : List (String × List String)) (fuel : Nat)
    (acc : Finset String × List String) (e : XmlElement) :
    Except Err (Finset String × List String) :=
  match attribGet e.attrib "value" with
  | none => .error (.keyError "value")
  | some vraw =>
    match attribGet e.attrib "name" with
    | none => .error (.keyError "name")
    | some nraw =>
      if pyStrip nraw = "test-module-name" then
        if mi (pyStrip vraw) then .ok (insert (pyStrip vraw) acc.1, acc.2)
        else .ok (acc.1, acc.2 ++ [pyStrip vraw])
      else if pyStrip nraw = "binary-test-source" then
        .ok (insert (_get_vts_binary_src_target (pyStrip vraw) rel) acc.1, acc.2)
      else if pyStrip nraw = "push-group" then
        match _get_vts_push_group_targets env rel fuel (pyStrip vraw) with
        | .error er => .error er
        | .ok ts => .ok (acc.1 ∪ ts, acc.2)
      else if pyStrip nraw = "push" then
        match _specified_bitness doc with
        | .error er => .error er
        | .ok true =>
          .ok (insert (pathJoin rel (⟨beforeArrow (pyStrip vraw).toList⟩ ++ "64"))
                (insert (pathJoin rel (⟨beforeArrow (pyStrip vraw).toList⟩ ++ "32")) acc.1),
              acc.2)
        | .ok false =>
          .ok (insert (pathJoin rel ⟨beforeArrow (pyStrip vraw).toList⟩) acc.1, acc.2)
      else .ok acc

/-- `get_targets_from_vts_xml(xml_file, rel_out_dir, module_info)`: the
target set and skip warnings collected over the option elements, or the
uncaught exception. -/
def get_targets_from_vts_xml (doc : List XmlElement) (rel : String) (mi : String → Bool)
    (env : List (String × List String)) (fuel : Nat) :
    Except Err (Finset String × List String) :=
  (doc.filter (fun e => e.tag == "option")).foldlM (vtsStep doc rel mi env fuel) (∅, [])

theorem except_bind_ok_inv {ε α β : Type} {x : Except ε α} {f : α → Except ε β} {b : β}
    (h : (x >>= f) = .ok b) : ∃ a, x = .ok a ∧ f a = .ok b := by
  cases x with
  | error e => rw [except_bind_error] at h; cases h
  | ok a => rw [except_bind_ok] at h; exact ⟨a, rfl, h⟩

theorem foldlM_append_except {ε α β : Type} (f : β → α → Except ε β) :
    ∀ (l1 l2 : List α) (b : β),
    (l1 ++ l2).foldlM f b = (l1.foldlM f b) >>= fun m => l2.foldlM f m := by
  intro l1
  induction l1 with
  | nil => intro l2 b; rw [List.nil_append, List.foldlM_nil]; rfl
  | cons x xs ih =>
    intro l2 b
    rw [List.cons_append, List.foldlM_cons, List.foldlM_cons]
    cases hx : f b x with
    | error e => rw [except_bind_error, except_bind_error, except_bind_error]
    | ok m => rw [except_bind_ok, except_bind_ok, ih]

theorem vtsStep_mono {doc : List XmlElement} {rel : String} {mi : String → Bool}
    {env : List (String × List String)} {fuel : Nat}
    {acc r : Finset String × List String} {e : XmlElement}
    (h : vtsStep doc rel mi env fuel acc e = .ok r) : acc.1 ⊆ r.1 := by
  unfold vtsStep at h
  repeat' split at h
  all_goals try cases h
  all_goals
    first
      | exact Finset.Subset.refl _
      | exact Finset.subset_insert _ _
      | exact Finset.subset_union_left
      | exact Finset.subset_union_left _ _
      | exact (Finset.subset_insert _ _).trans (Finset.subset_insert _ _)

theorem vtsFold_mono (doc : List XmlElement) (rel : String) (mi : String → Bool)
    (env : List (String × List String)) (fuel : Nat) :
    ∀ (l : List XmlElement) (acc r : Finset String × List String),
    l.foldlM (vtsStep doc rel mi env fuel) acc = .ok r → acc.1 ⊆ r.1 := by
  intro l
  induction l with
  | nil =>
    intro acc r h
    rw [List.foldlM_nil] at h
    cases h
    exact Finset.Subset.refl _
  | cons e es ih =>
    intro acc r h
    rw [List.foldlM_cons] at h
    obtain ⟨mid, hmid, hrest⟩ := except_bind_ok_inv h
    exact (vtsStep_mono hmid).trans (ih mid r hrest)

theorem sbgo_true :
    ∀ l, _specified_bitness_go l = .ok true →
    ∃ e ∈ l, ∃ nr vr, attribGet e.attrib "name" = some nr ∧
      attribGet e.attrib "value" = some vr ∧
      pyStrip nr = "append-bitness" ∧ pyStrip vr = "true" := by
  intro l
  induction l with
  | nil => intro h; cases h
  | cons e rest ih =>
    intro h
    rw [_specified_bitness_go] at h
    cases hv : attribGet e.attrib "value" with
    | none => rw [hv] at h; cases h
    | some v =>
      rw [hv] at h
      cases hn : attribGet e.attrib "name" with
      | none => rw [hn] at h; cases h
      | some n =>
        rw [hn] at h
        dsimp only at h
        by_cases hc : pyStrip n = "append-bitness" ∧ pyStrip v = "true"
        · exact ⟨e, List.mem_cons_self e rest, n, v, hn, hv, hc.1, hc.2⟩
        · rw [if_neg hc] at h
          obtain ⟨e', he', rest'⟩ := ih h
          exact ⟨e', List.mem_cons_of_mem _ he', rest'⟩

theorem sbgo_false :
    ∀ l, _specified_bitness_go l = .ok false →
    ∀ e ∈ l, ∀ nr vr, attribGet e.attrib "name" = some nr →
      attribGet e.attrib "value" = some vr →
      ¬(pyStrip nr = "append-bitness" ∧ pyStrip vr = "true") := by
  intro l
  induction l with
  | nil => intro _ e he; cases he
  | cons e rest ih =>
    intro h e' he' nr vr hnr hvr
    rw [_specified_bitness_go] at h
    cases hv : attribGet e.attrib "value" with
    | none => rw [hv] at h; cases h
    | some v =>
      rw [hv] at h
      cases hn : attribGet e.attrib "name" with
      | none => rw [hn] at h; cases h
      | some n =>
        rw [hn] at h
        dsimp only at h
        by_cases hc : pyStrip n = "append-bitness" ∧ pyStrip v = "true"
        · rw [if_pos hc] at h; cases h
        · rw [if_neg hc] at h
          rcases List.mem_cons.mp he' with he'' | he''
          · subst he''
            rw [hnr] at hn
            rw [hvr] at hv
            cases hn
            cases hv
            exact hc
          · exact ih h e' he'' nr vr hnr hvr

def optEl (n v : String) : XmlElement := ⟨"option", [("name", n), ("value", v)]⟩

def vtsDocBitness : List XmlElement :=
  [optEl "push" "DATA/bin->/data/bin", optEl "append-bitness" "true"]

def vtsDocPlain : List XmlElement := [optEl "push" "DATA/bin->/data/bin"]

/-- C6: a `push` option contributes `rel_out_dir`-joined left part of its
value with literal `32`/`64` suffixes exactly when some option of the same
document sets `append-bitness` to `true`, and the single unsuffixed target
otherwise — shown on the spec's example documents, as a membership law for
every document, and with `_specified_bitness` characterized as "ANY option
named `append-bitness` with trimmed value `true`". -/
theorem claim_C6 :
    get_targets_from_vts_xml vtsDocBitness "out" (fun _ => false) [] 0 =
      .ok ({"out/DATA/bin32", "out/DATA/bin64"}, [])
    ∧ get_targets_from_vts_xml vtsDocPlain "out" (fun _ => false) [] 0 =
      .ok ({"out/DATA/bin"}, [])
    ∧ (∀ doc rel mi env fuel S W (e : XmlElement) nraw vraw b,
        get_targets_from_vts_xml doc rel mi env fuel = .ok (S, W) →
        e ∈ doc → e.tag = "option" →
        attribGet e.attrib "name" = some nraw → pyStrip nraw = "push" →
        attribGet e.attrib "value" = some vraw →
        _specified_bitness doc = .ok b →
        (b = true →
          pathJoin rel (⟨beforeArrow (pyStrip vraw).toList⟩ ++ "32") ∈ S ∧
          pathJoin rel (⟨beforeArrow (pyStrip vraw).toList⟩ ++ "64") ∈ S) ∧
        (b = false → pathJoin rel ⟨beforeArrow (pyStrip vraw).toList⟩ ∈ S))
    ∧ (∀ doc b, _specified_bitness doc = .ok b →
        (b = true → ∃ e ∈ doc, e.tag = "option" ∧ ∃ nr vr,
          attribGet e.attrib "name" = some nr ∧ attribGet e.attrib "value" = some vr ∧
          pyStrip nr = "append-bitness" ∧ pyStrip vr = "true")
        ∧ (b = false → ∀ e ∈ doc, e.tag = "option" → ∀ nr vr,
          attribGet e.attrib "name" = some nr → attribGet e.attrib "value" = some vr →
          ¬(pyStrip nr = "append-bitness" ∧ pyStrip vr = "true"))) := by
  refine ⟨by decide, by decide, ?_, ?_⟩
  · intro doc rel mi env fuel S W e nraw vraw b hok he htag hname hpname hvalue hbit
    have hef : e ∈ doc.filter (fun x => x.tag == "option") :=
      List.mem_filter.mpr ⟨he, by simp [htag]⟩
    obtain ⟨l1, l2, hsplit⟩ := List.append_of_mem hef
    rw [get_targets_from_vts_xml, hsplit, foldlM_append_except] at hok
    obtain ⟨mid, hmid, hrest⟩ := except_bind_ok_inv hok
    rw [List.foldlM_cons] at hrest
    obtain ⟨mid2, hmid2, hrest2⟩ := except_bind_ok_inv hrest
    have hsub : mid2.1 ⊆ S := by
      have := vtsFold_mono doc rel mi env fuel l2 mid2 (S, W) hrest2
      exact this
    rw [vtsStep, hvalue, hname] at hmid2
    dsimp only at hmid2
    rw [hpname] at hmid2
    rw [if_neg (by decide), if_neg (by decide), if_neg (by decide), if_pos rfl,
      hbit] at hmid2
    constructor
    · intro hb
      subst hb
      dsimp only at hmid2
      cases hmid2
      constructor
      · exact hsub (Finset.mem_insert.mpr (Or.inr (Finset.mem_insert_self _ _)))
      · exact hsub (Finset.mem_insert_self _ _)
    · intro hb
      subst hb
      dsimp only at hmid2
      cases hmid2
      exact hsub (Finset.mem_insert_self _ _)
  · intro doc b hb
    constructor
    · intro htrue
      subst htrue
      obtain ⟨e, he, rest⟩ := sbgo_true _ hb
      have := List.mem_filter.mp he
      exact ⟨e, this.1, by simpa using this.2, rest⟩
    · intro hfalse e he htag nr vr hnr hvr
      subst hfalse
      exact sbgo_false _ hb e
        (List.mem_filter.mpr ⟨he, by simp [htag]⟩) nr vr hnr hvr

theorem claim_C6_witness :
    ("out/DATA/bin32" : String) ∈ ({"out/DATA/bin32", "out/DATA/bin64"} : Finset String)
    ∧ ("out/DATA/bin64" : String) ∈
        ({"out/DATA/bin32", "out/DATA/bin64"} : Finset String) := by
  have h := (claim_C6.2.2.1 vtsDocBitness "out" (fun _ => false) [] 0
    {"out/DATA/bin32", "out/DATA/bin64"} [] (optEl "push" "DATA/bin->/data/bin")
    "push" "DATA/bin->/data/bin" true (by decide) (by decide) (by decide)
    (by decide) (by decide) (by decide) (by decide)).1 rfl
  exact ⟨h.1, h.2⟩

end TestFinderUtils
